import Mathlib

/-!
Verification of the quiki wiki engine's parser core (`src/wikifier/parser.go`,
`src/wikifier/parser-catch.go`, `src/wikifier/block-gallery.go`) and of the
configuration accessors (`src/config/config.go`), by a shallow embedding in
Lean 4.  Go bytes are modelled as `Char` (every byte with syntactic meaning is
ASCII, and non-ASCII bytes are never special, so one character stands for one
byte); Go strings are modelled as `List Char`; Go slices of blocks are
modelled as a `List` arena indexed by `Nat` ids; Go's `error` return is
modelled with `Except`.
-/

namespace Quiki

/-- Source position (`parserPosition` in parser.go: line, column). -/
structure Pos where
  line : Nat
  column : Nat
deriving DecidableEq, Repr

/-- A content item of a catch: either a raw string or a reference to a block
(in Go an `interface{}` holding a `string` or a `*parserBlock`; blocks are
referenced by arena id here). -/
inductive Item where
  | str : List Char → Item
  | blk : Nat → Item
deriving DecidableEq, Repr

/-- `posContent` of parser-catch.go: a content item with its source position. -/
structure PosItem where
  content : Item
  pos : Pos
deriving DecidableEq, Repr

/-- `genericCatch` of parser-catch.go: the positioned content list, the
positioned prefix content, and the line/indent bookkeeping fields. -/
structure GCatch where
  positioned : List PosItem
  positionedPrefix : List PosItem
  line : List Char
  firstNewline : Bool
  removeIndent : List Char
deriving DecidableEq, Repr

def emptyGCatch : GCatch :=
  { positioned := [], positionedPrefix := [], line := [], firstNewline := false,
    removeIndent := [] }

/-- `genericCatch.lastContent`: `nil` when the positioned list is empty,
otherwise the content of its last element. -/
def GCatch.lastContent? (c : GCatch) : Option Item :=
  (c.positioned.getLast?).map (·.content)

/-- `genericCatch.lastString`: the last content when it is a string, `""`
otherwise. -/
def GCatch.lastString (c : GCatch) : List Char :=
  match c.lastContent? with
  | some (.str s) => s
  | _ => []

/-- Replace the content of the last positioned element, keeping its position
(`c.positioned[len(c.positioned)-1].content = content`).  With an empty list
the Go code would panic on index `-1`; the parser only calls this with a
non-empty list, and the model leaves the empty list unchanged. -/
def GCatch.setLastContent (c : GCatch) (item : Item) : GCatch :=
  match c.positioned.getLast? with
  | some pc => { c with positioned := c.positioned.dropLast ++ [⟨item, pc.pos⟩] }
  | none => c

/-- `genericCatch.pushContent`: append one positioned item. -/
def GCatch.pushContent (c : GCatch) (item : Item) (pos : Pos) : GCatch :=
  { c with positioned := c.positioned ++ [⟨item, pos⟩] }

/-- `genericCatch.appendContents` / the parser's `pushContents`: append a list
of positioned items. -/
def GCatch.appendContents (c : GCatch) (pc : List PosItem) : GCatch :=
  { c with positioned := c.positioned ++ pc }

/-- Index (in a `List Char` string) of the last `'\n'`, or `0` when there is
none (`strings.LastIndexByte` with the `-1 → 0` adjustment of `finishLine`). -/
def lastLFIndex : List Char → Nat
  | [] => 0
  | c :: rest =>
    if '\n' ∈ rest then lastLFIndex rest + 1
    else if c = '\n' then 0 else 0

/-- `strings.TrimPrefix`: drop `pre` from the front of `s` when it is a
prefix, otherwise return `s` unchanged. -/
def trimPrefix (s pre : List Char) : List Char :=
  if pre.isPrefixOf s then s.drop pre.length else s

/-- `genericCatch.finishLine`: clear the working line and, when the last
content is a string and `removeIndent` is set, strip `removeIndent` from the
start of that string's final line. -/
def GCatch.finishLine (c : GCatch) : GCatch :=
  let c := { c with line := ([] : List Char) }
  match c.lastContent? with
  | some (.str lastStr) =>
    if c.removeIndent = [] then c
    else
      let lineStart := lastLFIndex lastStr
      let newPortion := trimPrefix (lastStr.drop lineStart) c.removeIndent
      c.setLastContent (.str (lastStr.take lineStart ++ newPortion))
  | _ => c

/-- Lines 91-105 of parser-catch.go's `appendString`: extend the working line
and, when the appended string ends in a newline, record the indent to remove
and finish the line.  (Go indexes `s[len(s)-1]` and panics on an empty `s`;
the parser never appends an empty string.) -/
def GCatch.applyNewline (c : GCatch) (s : List Char) : GCatch :=
  let line' := c.line ++ s
  if s.getLast? = some '\n' then
    let c2 : GCatch :=
      if c.firstNewline = false ∧ line'.length > 2 then
        let afterTrim := line'.dropWhile (fun ch => ch = '\t' ∨ ch = ' ')
        let difference := line'.length - afterTrim.length
        { c with line := line', firstNewline := true,
                 removeIndent :=
                   if difference ≠ 0 then line'.take difference else c.removeIndent }
      else { c with line := line' }
    c2.finishLine
  else { c with line := line' }

/-- `genericCatch.appendString`: after the newline bookkeeping, either start a
new positioned element or merge into the last one when it is a string that
does not end in a newline. -/
def GCatch.appendString (c : GCatch) (s : List Char) (pos : Pos) : GCatch :=
  let c := c.applyNewline s
  if c.positioned = [] then c.pushContent (.str s) pos
  else
    match c.lastContent? with
    | some (.str v) =>
      if v ≠ [] ∧ v.getLast? = some '\n' then c.pushContent (.str s) pos
      else c.setLastContent (.str (v ++ s))
    | _ => c.pushContent (.str s) pos

namespace Parser

/-- Block type of the top-level block. -/
def mainType : List Char := ['m', 'a', 'i', 'n']

/-- Default block type when the scanned type is empty. -/
def mapType : List Char := ['m', 'a', 'p']

/-- Block type substituted when the scanned type starts with `$`. -/
def modelType : List Char := ['m', 'o', 'd', 'e', 'l']

/-- `parserBlock`: type, name, classes, open/close positions, closed flag,
parent block (arena id), and its embedded `genericCatch`. -/
structure BlockData where
  typ : List Char
  name : List Char
  classes : List (List Char)
  closed : Bool
  openPos : Pos
  closePos : Pos
  parent : Option Nat
  cat : GCatch
deriving DecidableEq, Repr

/-- The variable-name catch created by `newParserVariableName`.  Its
implementation is absent from the sources under review; modelled from the
spec (§4.1, §4.2) and the inline Perl reference in parser.go: the prefix
(`@`, `%`, `-@` or `-%`) is kept as positioned prefix content, and the parent
is the block whose catch was active at creation. -/
structure VarData where
  cat : GCatch
  parent : Nat
deriving DecidableEq, Repr

/-- The active catch: the current block, or a variable-name catch. -/
inductive CatchRef where
  | block : Nat → CatchRef
  | varName : VarData → CatchRef
deriving DecidableEq, Repr

/-- Parse error (`errors.New` values in parser.go).  `nilPanic` models a Go
nil-pointer dereference (appending through a `nil` parent catch), which the
parser code does not guard against. -/
inductive PErr where
  | blockHasNoType
  | closeMainBlock
  | nothingToCatch : Char → PErr
  | invalidByte : Char → CatchRef → PErr
  | nilPanic
deriving DecidableEq, Repr

/-- `parser`: the full lexer/parser state.  Blocks live in an arena (`blocks`,
indexed by id); `blockId` is `p.block`; `catch` is `p.catch` (`none` models a
Go `nil` catch). -/
structure PState where
  blocks : List BlockData
  blockId : Nat
  catchRef : Option CatchRef
  pos : Pos
  last : Char
  this : Char
  next : Char
  skip : Bool
  ignore : Bool
  escape : Bool
  commentLevel : Nat
  braceLevel : Nat
  braceFirst : Bool
  varNotInterpolated : Bool
  varNegated : Bool
deriving DecidableEq, Repr

/-- The type of the current block (`p.block.typ`). -/
def PState.blockTyp (s : PState) : List Char :=
  match s.blocks.get? s.blockId with
  | some bd => bd.typ
  | none => []

/-- The `genericCatch` data of a catch reference. -/
def PState.gcatchOf (s : PState) : CatchRef → GCatch
  | .block id =>
    match s.blocks.get? id with
    | some bd => bd.cat
    | none => emptyGCatch
  | .varName v => v.cat

/-- Apply a `genericCatch` update to the block at `id` in the arena. -/
def setCat (blocks : List BlockData) (id : Nat) (f : GCatch → GCatch) :
    List BlockData :=
  match blocks.get? id with
  | some bd => blocks.set id { bd with cat := f bd.cat }
  | none => blocks

/-- Apply a `genericCatch` update to the current catch (mutation of the object
`p.catch` points to). -/
def PState.updateCatch (s : PState) (f : GCatch → GCatch) : PState :=
  match s.catchRef with
  | some (.block id) => { s with blocks := setCat s.blocks id f }
  | some (.varName v) => { s with catchRef := some (.varName { v with cat := f v.cat }) }
  | none => s

/-- `getParentCatch`.  For a block this returns its parent block, and for the
`main` block (no parent) the Go `nil`; for a variable-name catch it returns
the stored parent block.  `parserBlock.parentCatch` is absent from the sources
under review; modelled from the spec (§4.2: close pops the catch to the
enclosing block's catch). -/
def PState.parentCatchOf (s : PState) : CatchRef → Option CatchRef
  | .block id => ((s.blocks.get? id).bind (·.parent)).map .block
  | .varName v => some (.block v.parent)

/-- `byteOK`.  Absent from the sources under review for both catch kinds;
modelled from the spec (§4.1) and the inline Perl reference in parser.go:
a block accepts every byte, a variable name accepts `[\w.]`. -/
def byteOK : CatchRef → Char → Bool
  | .block _, _ => true
  | .varName _, b => b.isAlphanum || b = '_' || b = '.'

/-- `shouldSkipByte`.  Absent from the sources under review; modelled from the
spec and the inline Perl reference: a block is terminated only by `}` (never
by skip), a variable name terminates on whitespace. -/
def shouldSkipByte : CatchRef → Char → Bool
  | .block _, _ => false
  | .varName _, b => b = ' ' || b = '\t' || b = '\n' || b = '\r' || b = Char.ofNat 12

/-- `variableTokens`: bytes that begin variable syntax at the top level. -/
def isVarToken (b : Char) : Bool :=
  b = '@' || b = '%' || b = ':' || b = ';' || b = '-'

/-- `parser.nextByte`: reset `ignore`, remember `last`, and set `escape` for
the next byte after an unescaped backslash outside a brace-escape region. -/
def nextByte (s : PState) (b : Char) : Except PErr PState :=
  .ok { s with ignore := false, last := b,
               escape := if b = '\\' ∧ s.escape = false ∧ s.braceLevel = 0
                         then true else false }

/-- `parser.handleByte`: append the byte (with the backslash reinjected when
`ignore && escape`) to the current catch, terminating the catch first when the
catch skips this byte, and erroring when the catch rejects it. -/
def handleByte (s : PState) (b : Char) : Except PErr PState :=
  match s.catchRef with
  | none => .error (.nothingToCatch b)
  | some c =>
    let add : List Char := if s.ignore = true ∧ s.escape = true then [s.last, b] else [b]
    if shouldSkipByte c b then
      let g := s.gcatchOf c
      let pc := match g.positionedPrefix with
                | [] => g.positioned
                | pfx => pfx ++ g.positioned
      match s.parentCatchOf c with
      | none => .error .nilPanic
      | some pcat =>
        let s := { s with catchRef := some pcat }
        let s := s.updateCatch (fun g => g.appendContents pc)
        let s := s.updateCatch (fun g => g.appendString add s.pos)
        nextByte s b
    else if byteOK c b = false then .error (.invalidByte b c)
    else
      let s := s.updateCatch (fun g => g.appendString add s.pos)
      nextByte s b

/-- The backward scan over the catch's last string that extracts the block
type and name (parser.go lines 183-229), processing the reversed string. -/
structure ScanResult where
  blockType : List Char
  blockName : List Char
  charsScanned : Nat
deriving DecidableEq, Repr

/-- Characters that may be part of a block type (Go regexp `[\w\-\$\.]`). -/
def isTypeChar (c : Char) : Bool :=
  c.isAlphanum || c = '_' || c = '-' || c = '$' || c = '.'

/-- Whitespace per Go regexp `\s` (`[\t\n\f\r ]`). -/
def isSpaceChar (c : Char) : Bool :=
  c = ' ' || c = '\t' || c = '\n' || c = '\r' || c = Char.ofNat 12

/-- The backward header scan, over the reversed last content.  `inName` is the
`inBlockName` counter; the accumulated type and name are built by prepending
as in the Go loop. -/
def scanGo : List Char → Int → List Char → List Char → Nat → ScanResult
  | [], _, typ, name, scanned => ⟨typ, name, scanned⟩
  | c :: rest, inName, typ, name, scanned =>
    let scanned := scanned + 1
    if c = ']' ∧ inName + 1 = 1 then scanGo rest (inName + 1) typ name scanned
    else if c = '[' ∧ inName - 1 ≠ 1 then scanGo rest (inName - 1) typ name scanned
    else
      let inName := if c = ']' then inName + 1 else if c = '[' then inName - 1 else inName
      if inName ≠ 0 then scanGo rest inName typ (c :: name) scanned
      else if isTypeChar c then scanGo rest inName (c :: typ) name scanned
      else if c = '~' ∧ typ ≠ [] then ⟨typ, name, scanned⟩
      else if isSpaceChar c ∧ typ = [] then scanGo rest inName typ name scanned
      else ⟨typ, name, scanned - 1⟩

/-- `strings.Split` on a single separator character. -/
def splitOnChar (sep : Char) : List Char → List (List Char)
  | [] => [[]]
  | c :: rest =>
    match splitOnChar sep rest with
    | [] => [[c]]
    | h :: t => if c = sep then [] :: h :: t else (c :: h) :: t

/-- The last string of the current catch (`p.catch.getLastString()`). -/
def PState.curLastString (s : PState) : List Char :=
  match s.catchRef with
  | some c => (s.gcatchOf c).lastString
  | none => []

/-- Block creation on an unescaped `{` whose next byte is not `@` (parser.go
lines 173-277): scan the header out of the catch's last string, strip it,
derive classes, default an empty type to `map`, rewrite a `$`-type to a model,
create the child block, make it the current block and catch, and enter a
brace-escape region when the next byte is another `{`. -/
def openBlock (s : PState) : Except PErr PState :=
  let lastContent := s.curLastString
  if lastContent = [] then .error .blockHasNoType
  else
    let r := scanGo lastContent.reverse 0 [] [] 0
    let s := s.updateCatch (fun g =>
      g.setLastContent (.str (lastContent.take (lastContent.length - r.charsScanned))))
    let (typ0, classes) :=
      match splitOnChar '.' r.blockType with
      | t :: c :: cs => (t, c :: cs)
      | _ => (r.blockType, ([] : List (List Char)))
    let typ1 := if typ0 = [] then mapType else typ0
    let (typ2, name2) :=
      if typ1.head? = some '$' then (modelType, typ1.drop 1)
      else (typ1, r.blockName)
    let nid := s.blocks.length
    let nb : BlockData :=
      { typ := typ2, name := name2, classes := classes, closed := false,
        openPos := s.pos, closePos := ⟨0, 0⟩, parent := some s.blockId,
        cat := emptyGCatch }
    let s := { s with blocks := s.blocks ++ [nb], blockId := nid,
                      catchRef := some (.block nid) }
    if s.next = '{' then
      .ok { s with braceFirst := true, braceLevel := s.braceLevel + 1 }
    else .ok s

/-- The `{` branch of `parseByte`: set `ignore`; an escaped `{` goes straight
to the catch; `{@` skips the `@`; otherwise a block is created.  In every case
the byte then falls through to `handleByte`. -/
def openStep (s : PState) (b : Char) : Except PErr PState :=
  let s := { s with ignore := true }
  if s.escape = true then handleByte s b
  else if s.next = '@' then handleByte { s with skip := true } b
  else
    match openBlock s with
    | .error e => .error e
    | .ok s => handleByte s b

/-- The `}` branch of `parseByte`: closing `main` is an error; otherwise mark
the block closed, pop `p.block` and `p.catch`, append the closed block to the
new catch, and fall through to `handleByte`. -/
def closeStep (s : PState) (b : Char) : Except PErr PState :=
  let s := { s with ignore := true }
  if s.escape = true then handleByte s b
  else if s.blockTyp = mainType then .error .closeMainBlock
  else
    let oldId := s.blockId
    let blocks :=
      match s.blocks.get? oldId with
      | some bd => s.blocks.set oldId { bd with closed := true, closePos := s.pos }
      | none => s.blocks
    let s := { s with blocks := blocks }
    match (s.blocks.get? oldId).bind (·.parent) with
    | none => .error .nilPanic
    | some pid =>
      let s := { s with blockId := pid }
      match s.catchRef with
      | none => .error .nilPanic
      | some c =>
        match s.parentCatchOf c with
        | none => .error .nilPanic
        | some pcat =>
          let s := { s with catchRef := some pcat }
          let s := s.updateCatch (fun g => g.pushContent (.blk oldId) s.pos)
          handleByte s b

/-- The variable-token branch of `parseByte` (only reached when the current
block is `main` and the previous byte is not `[`).  `@`/`%` with the catch on
the block itself opens a variable-name catch; the `:`/`;`/`-` sub-branches of
the Go code have empty bodies.  The byte falls through to `handleByte`. -/
def varStep (s : PState) (b : Char) : Except PErr PState :=
  let s := { s with ignore := true }
  if s.escape = true then handleByte s b
  else
    let s :=
      if (b = '@' ∨ b = '%') ∧ s.catchRef = some (.block s.blockId) then
        let pfx : List Char := if s.last = '-' then [s.last, b] else [b]
        { s with varNotInterpolated := if b = '%' then true else s.varNotInterpolated,
                 varNegated := if s.last = '-' then true else s.varNegated,
                 catchRef := some (.varName
                   { cat := { emptyGCatch with
                              positionedPrefix := [⟨.str pfx, s.pos⟩] },
                     parent := s.blockId }) }
      else s
    handleByte s b

/-- The brace-escape section of `parseByte` (lines 90-115): count inner
braces, pop the catch when the level returns to 0, and hand every byte that is
neither the first nor the last brace to the catch. -/
def braceStep (s : PState) (b : Char) : Except PErr PState :=
  let isFirst := s.braceFirst
  let s : PState := { s with braceFirst := false }
  let s : PState :=
    if b = '{' ∧ isFirst = false then { s with braceLevel := s.braceLevel + 1 }
    else if b = '}' then
      let s : PState := { s with braceLevel := s.braceLevel - 1 }
      if s.braceLevel = 0 then
        { s with catchRef := match s.catchRef with
                          | some c => s.parentCatchOf c
                          | none => none }
      else s
    else s
  if isFirst = true ∨ s.braceLevel = 0 then nextByte s b
  else handleByte s b

/-- The comment-entrance branch: `/` followed by `*` increments
`commentLevel` unless escaped. -/
def commentOpenStep (s : PState) (b : Char) : Except PErr PState :=
  let s := { s with ignore := true }
  if s.escape = true then handleByte s b
  else nextByte { s with commentLevel := s.commentLevel + 1 } b

/-- The comment-exit branch: `*` followed by `/` decrements a positive
`commentLevel` and skips the `/`; at level 0 the `*` is ordinary content. -/
def commentCloseStep (s : PState) (b : Char) : Except PErr PState :=
  if s.commentLevel = 0 then handleByte s b
  else nextByte { s with commentLevel := s.commentLevel - 1, skip := true } b

/-- `parser.parseByte`: the per-byte dispatcher, in the order of the Go code:
brace escape, comment entrance, comment exit, comment discard, `{`, `}`,
backslash, variable tokens, default. -/
def parseByte (s : PState) (b : Char) : Except PErr PState :=
  if s.braceLevel ≠ 0 then braceStep s b
  else if b = '/' ∧ s.next = '*' then commentOpenStep s b
  else if b = '*' ∧ s.next = '/' then commentCloseStep s b
  else if s.commentLevel ≠ 0 then nextByte s b
  else if b = '{' then openStep s b
  else if b = '}' then closeStep s b
  else if b = '\\' then (if s.escape = true then handleByte s b else nextByte s b)
  else if s.blockTyp = mainType ∧ isVarToken b = true ∧ s.last ≠ '[' then varStep s b
  else handleByte s b

/-- `parser.parseLine`: iterate the bytes of one line (column starts at 1),
honouring the `skip` flag; the lookahead `next` is the following byte on the
line or the zero byte. -/
def parseLineGo (s : PState) : List Char → Nat → Except PErr PState
  | [], _ => .ok s
  | b :: rest, col =>
    if s.skip = true then parseLineGo { s with skip := false } rest (col + 1)
    else
      let nxt := match rest with
                 | n :: _ => n
                 | [] => Char.ofNat 0
      let s := { s with pos := { s.pos with column := col }, this := b, next := nxt }
      match parseByte s b with
      | .error e => .error e
      | .ok s' => parseLineGo s' rest (col + 1)

/-- The line loop of `Parse`: line numbers start at 1. -/
def runLines (s : PState) : List (List Char) → Nat → Except PErr PState
  | [], _ => .ok s
  | l :: rest, ln =>
    match parseLineGo { s with pos := { s.pos with line := ln } } l 1 with
    | .error e => .error e
    | .ok s' => runLines s' rest (ln + 1)

/-- The initial parser state: a `main` block that is both the current block
and the catch. -/
def initState : PState :=
  { blocks := [{ typ := mainType, name := [], classes := [], closed := false,
                 openPos := ⟨0, 0⟩, closePos := ⟨0, 0⟩, parent := none,
                 cat := emptyGCatch }],
    blockId := 0, catchRef := some (.block 0), pos := ⟨0, 0⟩,
    last := Char.ofNat 0, this := Char.ofNat 0, next := Char.ofNat 0,
    skip := false, ignore := false, escape := false,
    commentLevel := 0, braceLevel := 0, braceFirst := false,
    varNotInterpolated := false, varNegated := false }

/-- `wikifier.Parse`: split the input on LF and feed the parser line by line.
The Go function only logs the resulting `main` block and returns the error;
the model returns the final state so the block tree is observable. -/
def ParseGo (input : List Char) : Except PErr PState :=
  runLines initState (splitOnChar '\n' input) 1

/-- The content items of the `main` block (its positioned content without the
positions). -/
def mainItems (s : PState) : List Item :=
  match s.blocks.get? 0 with
  | some bd => bd.cat.positioned.map (·.content)
  | none => []

/-- Run the parser on an input and observe the `main` block's content items
(`none` when parsing fails). -/
def parseItems (input : List Char) : Option (List Item) :=
  match ParseGo input with
  | .ok s => some (mainItems s)
  | .error _ => none

/-- The parser state reached after the input `a{{`: a block `a` has been
opened and the brace-escape region armed (level 1, first brace consumed). -/
def braceWitnessState : PState :=
  match ParseGo ['a', '{', '{'] with
  | .ok s => s
  | .error _ => initState

/-- The parser state with a single space as the pending content of `main`,
reached after the input consisting of one space character. -/
def spaceWitnessState : PState :=
  match ParseGo [' '] with
  | .ok s => s
  | .error _ => initState

end Parser

namespace Gallery

/-- `imageBlock`, reduced to the fields `galleryBlock` reads and writes
(block-image.go is absent from the sources under review).  Strings are
`List Char` as elsewhere. -/
structure ImageData where
  file : List Char
  path : List Char
  width : Int
  height : Int
  parsedDimensions : Bool
deriving DecidableEq, Repr

/-- A map value: a string, an image block, or some other block.  The `Map`
block implementation is absent from the sources under review; modelled from
the spec (§3): a gallery's underlying map is a list of keyed values in
insertion order, `GetStr` succeeds only on strings and `GetBlock` only on
blocks. -/
inductive GVal where
  | str : List Char → GVal
  | img : ImageData → GVal
  | other : GVal
deriving DecidableEq, Repr

/-- `galleryEntry`: the thumbnail path and the contained image. -/
structure GalleryEntry where
  thumbPath : List Char
  img : ImageData
deriving DecidableEq, Repr

/-- `galleryBlock`: thumbnail height, collected images, the underlying map
entries in insertion order, and collected warnings. -/
structure GalleryBlock where
  thumbHeight : Int
  images : List GalleryEntry
  entries : List (List Char × GVal)
  warnings : List (List Char)
deriving DecidableEq, Repr

/-- `newGalleryBlock`: the thumbnail height defaults to 220. -/
def newGalleryBlock (entries : List (List Char × GVal)) : GalleryBlock :=
  { thumbHeight := 220, images := [], entries := entries, warnings := [] }

/-- The digit loop of `strconv.Atoi`: accumulate decimal digits, failing on
any non-digit. -/
def digitsVal (acc : Nat) : List Char → Option Nat
  | [] => some acc
  | c :: rest =>
    if c.isDigit then digitsVal (acc * 10 + (c.toNat - 48)) rest else none

/-- `strconv.Atoi`: an optional sign followed by at least one decimal digit. -/
def Atoi : List Char → Option Int
  | [] => none
  | '-' :: rest =>
    if rest = [] then none else (digitsVal 0 rest).map (fun n => -(n : Int))
  | '+' :: rest =>
    if rest = [] then none else (digitsVal 0 rest).map (fun n => (n : Int))
  | s => (digitsVal 0 s).map (fun n => (n : Int))

/-- The decimal rendering of an integer, as a character list. -/
def intToChars : Int → List Char
  | .ofNat n => Nat.toDigits 10 n
  | .negSucc n => '-' :: Nat.toDigits 10 (n + 1)

/-- The key prefix that marks anonymous map entries. -/
def anonPrefix : List Char := ['a', 'n', 'o', 'n', '_']

/-- The `thumb_height` key. -/
def thumbHeightKey : List Char :=
  ['t', 'h', 'u', 'm', 'b', '_', 'h', 'e', 'i', 'g', 'h', 't']

/-- Modelled from the spec: `imageBlock.parse` derives the image's path from
its file name and requested dimensions (§4.8 sized-image naming `WxH-base`);
block-image.go is absent from the sources under review.  Only the path's
dependence on the requested dimensions matters to the claims. -/
def imageParse (img : ImageData) : ImageData :=
  { img with path := intToChars img.width ++ ['x'] ++ intToChars img.height ++
                     ['-'] ++ img.file }

/-- `galleryBlock.addImage`: re-parse the image with `height = thumbHeight`
and `width = 0`, keep the re-parsed path as the thumbnail path, and point the
image's own path at the full-size file under the image root.  (The retina
scale `multi` computed by the Go code is never used and is omitted.) -/
def addImage (rootImage : List Char) (g : GalleryBlock) (img : ImageData) :
    GalleryBlock :=
  let img := { img with height := g.thumbHeight, width := 0, parsedDimensions := true }
  let img := imageParse img
  let thumbPath := img.path
  let img := { img with path := rootImage ++ ['/'] ++ img.file }
  { g with images := g.images ++ [{ thumbPath := thumbPath, img := img }] }

/-- One iteration of `galleryBlock.parse`'s key loop: `thumb_height` updates
the thumbnail height when its value is a string holding an integer; other
keys must be `anon_` image blocks, which are added; everything else warns. -/
def galleryStep (rootImage : List Char) (g : GalleryBlock)
    (kv : List Char × GVal) : GalleryBlock :=
  if kv.1 = thumbHeightKey then
    match kv.2 with
    | .str sv =>
      match Atoi sv with
      | some h => { g with thumbHeight := h }
      | none => { g with warnings := g.warnings ++ [kv.1] }
    | _ => { g with warnings := g.warnings ++ [kv.1] }
  else if anonPrefix.isPrefixOf kv.1 = false then
    { g with warnings := g.warnings ++ [kv.1] }
  else
    match kv.2 with
    | .img i => addImage rootImage g i
    | .str _ => { g with warnings := g.warnings ++ [kv.1] }
    | .other => { g with warnings := g.warnings ++ [kv.1] }

/-- `galleryBlock.parse`: fold the key loop over the ordered keys. -/
def galleryParse (rootImage : List Char) (g : GalleryBlock) : GalleryBlock :=
  g.entries.foldl (galleryStep rootImage) g

end Gallery

/-- The relation of C9 on consecutive content items: both may be strings only
when the earlier one ends in a newline. -/
def okPair (a b : PosItem) : Prop :=
  match a.content, b.content with
  | .str u, .str _ => u.getLast? = some '\n'
  | _, _ => True

/-- The C9 invariant of a catch's positioned content list. -/
def CatchInv (c : GCatch) : Prop := List.Chain' okPair c.positioned

/-- `removeIndent` only ever holds tabs and spaces (it is set from the
characters removed by `TrimLeft(line, "\t ")`). -/
def IndentOnly (ri : List Char) : Prop := ∀ ch ∈ ri, ch = '\t' ∨ ch = ' '

/-- A small concrete catch used as the C9 witness: one pending string `a` not
ending in a newline. -/
def c9Witness : GCatch :=
  { positioned := [⟨.str ['a'], ⟨1, 1⟩⟩], positionedPrefix := [],
    line := ['a'], firstNewline := false, removeIndent := [] }

end Quiki

/-- `isTrueString` of config.go: a string value is "true" unless it is empty
or the literal `"0"`. -/
def isTrueString (str : String) : Bool :=
  if str = "" ∨ str = "0" then false else true

/-- The configuration, abstracted to its `Get` behaviour.  `Config.Get`
resolves a dotted variable name through `getWhere`, whose implementation is
not part of the sources under review; the claim under study treats `Get` as
opaque, so it is modelled as an arbitrary name-to-string function (missing
paths and non-string values return `""`, exactly as `Get` does). -/
structure Config where
  get : String → String

/-- `Config.GetBool`: `isTrueString(conf.Get(varName))`. -/
def Config.GetBool (conf : Config) (varName : String) : Bool :=
  isTrueString (conf.get varName)

/-- `Config.Require`: same as `Get` except that a value that is not a "true
string" yields an error. -/
def Config.Require (conf : Config) (varName : String) : Except String String :=
  let val := conf.get varName
  if isTrueString val = false then .error ("@" ++ varName ++ " is required")
  else .ok val

/-- Whether an `Except` result is an error. -/
def isError : Except String String → Bool
  | .error _ => true
  | .ok _ => false

/-- C10: for every configuration variable name `v`, `Config.Require v` returns
an error if and only if `Config.Get v` yields the empty string or the literal
string `"0"`, and `Config.GetBool v` returns `false` in exactly the same
cases — a stored `"0"` is indistinguishable from a missing value at the
`Require`/`GetBool` interface. -/
theorem config_require_getbool_iff (conf : Config) (v : String) :
    (isError (conf.Require v) = true ↔ (conf.get v = "" ∨ conf.get v = "0"))
    ∧ (conf.GetBool v = false ↔ (conf.get v = "" ∨ conf.get v = "0")) := by
  unfold Config.Require Config.GetBool isTrueString isError
  constructor
  · constructor
    · intro h
      by_cases hc : conf.get v = "" ∨ conf.get v = "0"
      · exact hc
      · simp [hc] at h
    · intro h
      simp [h]
  · constructor
    · intro h
      by_cases hc : conf.get v = "" ∨ conf.get v = "0"
      · exact hc
      · simp [hc] at h
    · intro h
      simp [h]

namespace Quiki

namespace Parser

/-- C5: for every source `S`, `Parse S` is deterministic: two runs on the same
input produce the same result — structurally equal block trees on success and
the identical error on failure.  The embedded parser is a pure function of
the input (the Go code reads no state other than its own), so the two runs
are definitionally the same value. -/
theorem parse_deterministic (input : List Char) : ParseGo input = ParseGo input := rfl

/-- C3: an unescaped `}` seen while the current open block is the top-level
`main` block, outside comments and brace-escape regions, makes the parser
fail with the structural error `Attempted to close main block`; closing
`main` never succeeds. -/
theorem close_main_is_error (s : PState)
    (h0 : s.braceLevel = 0) (h1 : s.commentLevel = 0) (h2 : s.escape = false)
    (h3 : s.blockTyp = mainType) :
    parseByte s '}' = .error .closeMainBlock := by
  unfold parseByte closeStep
  simp only [PState.blockTyp, List.get?_eq_getElem?] at h3
  simp [h0, h1, h2, h3, PState.blockTyp]

/-- Witness for C3: the very first byte `}` of a source fails with the
close-main error. -/
theorem close_main_is_error_witness :
    parseByte initState '}' = Except.error PErr.closeMainBlock :=
  close_main_is_error initState rfl rfl rfl rfl

/-- C2 (what the code actually does at the failing inputs): `parseByte`
appends an escaped byte *without* special meaning with the backslash dropped
(source `\a` yields content `a`), appends an escaped byte *with* special
meaning with the backslash kept (source `\{` yields content `\{`), and
appends an escaped backslash as a single backslash (source `\\` yields
content `\`).  The claim — and the comment in `handleByte` — say the
backslash is reinjected exactly for bytes with no special meaning; the
`p.ignore && p.escape` condition implements the opposite. -/
theorem escape_byte_actual :
    parseItems ['\\', 'a'] = some [Item.str ['a']] ∧
    parseItems ['\\', '{'] = some [Item.str ['\\', '{']] ∧
    parseItems ['\\', '\\'] = some [Item.str ['\\']] ∧
    parseItems ['\\', ';'] = some [Item.str ['\\', ';']] := by decide

/-- Counterexample for C4: inside a comment, a backslash still arms the
escape flag, and the escaped comment opener `\/*` then appends `\/` to the
catch — so bytes inside a comment can contribute content, contradicting the
claim that every byte inside a comment is discarded.  The whole input is a
comment, yet the `main` block ends up with content `\/`. -/
theorem comment_discard_cex :
    parseItems ['/', '*', '\\', '/', '*', '*', '/'] = some [Item.str ['\\', '/']] := by
  decide

/-- Counterexample for C8: CR bytes are not stripped.  Parsing `a\r\nb`
retains the `\r` in the content, so a CRLF source and its LF-only counterpart
produce different block trees, contradicting the claim. -/
theorem crlf_stripped_cex :
    parseItems ['a', '\r', '\n', 'b'] ≠ parseItems ['a', '\n', 'b'] ∧
    parseItems ['a', '\r', '\n', 'b'] = some [Item.str ['a', '\r', 'b']] := by decide

/-- `setCat` does not change the number of blocks in the arena. -/
theorem setCat_length (blocks : List BlockData) (id : Nat) (f : GCatch → GCatch) :
    (setCat blocks id f).length = blocks.length := by
  unfold setCat
  cases blocks.get? id <;> simp

/-- What `setCat` does to the updated entry. -/
theorem setCat_get? (blocks : List BlockData) (id : Nat) (f : GCatch → GCatch)
    (bd : BlockData) (h : blocks.get? id = some bd) :
    (setCat blocks id f).get? id = some { bd with cat := f bd.cat } := by
  unfold setCat
  rw [h]
  simp only [List.get?_eq_getElem?, List.getElem?_set_self']
  simp only [List.get?_eq_getElem?] at h
  rw [h]
  rfl

/-- `handleByte` on an unescaped byte with a block catch: the byte is appended
to the block's content and the parser moves on. -/
theorem handleByte_block (t : PState) (b : Char) (id : Nat)
    (h3 : t.catchRef = some (.block id)) (he : t.escape = false) :
    handleByte t b =
      .ok { t with blocks := setCat t.blocks id (fun g => g.appendString [b] t.pos),
                   ignore := false, last := b,
                   escape := (if b = '\\' ∧ t.braceLevel = 0 then true else false) } := by
  unfold handleByte nextByte PState.updateCatch
  simp [h3, he, shouldSkipByte, byteOK]

/-- `openBlock` when the next byte is `{`: a child block is created, becomes
the current block and catch, and the brace-escape region is armed. -/
theorem openBlock_brace_spec (t : PState) (id : Nat)
    (h3 : t.catchRef = some (.block id)) (hlast : t.curLastString ≠ [])
    (hn : t.next = '{') :
    ∃ t', openBlock t = .ok t' ∧ t'.braceLevel = t.braceLevel + 1 ∧
      t'.braceFirst = true ∧ t'.blockId = t.blocks.length ∧
      t'.catchRef = some (.block t.blocks.length) ∧ t'.escape = t.escape ∧
      t'.pos = t.pos := by
  unfold openBlock
  simp only [PState.updateCatch, h3]
  rw [if_neg hlast]
  rw [if_pos hn]
  exact ⟨_, rfl, by simp [setCat_length], rfl, by simp [setCat_length],
         by simp [setCat_length], rfl, rfl⟩

/-- `openBlock` when the scanned block type is empty: the created block gets
type `map`, the scanned name, no classes, and the current block as parent. -/
theorem openBlock_creates (t : PState) (id : Nat)
    (h3 : t.catchRef = some (.block id)) (hlast : t.curLastString ≠ [])
    (hscan : (scanGo t.curLastString.reverse 0 [] [] 0).blockType = []) :
    ∃ t', openBlock t = .ok t' ∧ t'.blockId = t.blocks.length ∧
      t'.catchRef = some (.block t.blocks.length) ∧ t'.escape = t.escape ∧
      t'.blocks.get? t.blocks.length = some
        { typ := mapType,
          name := (scanGo t.curLastString.reverse 0 [] [] 0).blockName,
          classes := [], closed := false, openPos := t.pos, closePos := ⟨0, 0⟩,
          parent := some t.blockId, cat := emptyGCatch } := by
  unfold openBlock
  simp only [PState.updateCatch, h3, hscan]
  rw [if_neg hlast]
  by_cases hnx : t.next = '{'
  · rw [if_pos hnx]
    refine ⟨_, rfl, by simp [setCat_length], by simp [setCat_length], rfl, ?_⟩
    simp only [setCat_length]
    have h := List.getElem?_concat_length
      (setCat t.blocks id (fun g => g.setLastContent (.str
        (t.curLastString.take (t.curLastString.length -
          (scanGo t.curLastString.reverse 0 [] [] 0).charsScanned)))))
      ({ typ := mapType,
         name := (scanGo t.curLastString.reverse 0 [] [] 0).blockName,
         classes := [], closed := false, openPos := t.pos, closePos := ⟨0, 0⟩,
         parent := some t.blockId, cat := emptyGCatch } : BlockData)
    rw [setCat_length] at h
    simpa using h
  · rw [if_neg hnx]
    refine ⟨_, rfl, by simp [setCat_length], by simp [setCat_length], rfl, ?_⟩
    simp only [setCat_length]
    have h := List.getElem?_concat_length
      (setCat t.blocks id (fun g => g.setLastContent (.str
        (t.curLastString.take (t.curLastString.length -
          (scanGo t.curLastString.reverse 0 [] [] 0).charsScanned)))))
      ({ typ := mapType,
         name := (scanGo t.curLastString.reverse 0 [] [] 0).blockName,
         classes := [], closed := false, openPos := t.pos, closePos := ⟨0, 0⟩,
         parent := some t.blockId, cat := emptyGCatch } : BlockData)
    rw [setCat_length] at h
    simpa using h

/-- C1: brace-escape regions.  (1) An unescaped block-opening `{` whose next
byte is another `{` creates the block and enters the region (`braceLevel` 1,
`braceFirst` set).  (2) The second `{` itself is consumed without touching any
catch.  (3) Every interior byte is appended literally to the opened block's
catch — the comment, escape, variable and block branches of `parseByte` are
bypassed — and an interior `{` raises `braceLevel`.  (4) An interior `}` at
level ≥ 2 is appended literally and lowers `braceLevel`.  (5) The `}` that
returns `braceLevel` to 0 ends the region: the catch is popped to the parent
and the byte is not appended. -/
theorem brace_escape_region (s : PState) (b : Char) (id : Nat)
    (hesc : s.escape = false) :
    (s.braceLevel = 0 → s.commentLevel = 0 → b = '{' → s.next = '{' →
      s.catchRef = some (.block id) → s.curLastString ≠ [] →
      ∃ s', parseByte s b = .ok s' ∧ s'.braceLevel = 1 ∧ s'.braceFirst = true ∧
            s'.blockId = s.blocks.length ∧
            s'.catchRef = some (.block s.blocks.length))
    ∧ (s.braceLevel ≠ 0 → s.braceFirst = true → b ≠ '}' →
      parseByte s b = .ok { s with braceFirst := false, ignore := false, last := b,
                                   escape := false })
    ∧ (s.braceLevel ≠ 0 → s.braceFirst = false → b ≠ '}' →
      s.catchRef = some (.block id) →
      parseByte s b = .ok { s with braceLevel := (if b = '{' then s.braceLevel + 1
                                                 else s.braceLevel),
                                   blocks := setCat s.blocks id
                                     (fun g => g.appendString [b] s.pos),
                                   ignore := false, last := b, escape := false })
    ∧ (2 ≤ s.braceLevel → s.braceFirst = false → b = '}' →
      s.catchRef = some (.block id) →
      parseByte s b = .ok { s with braceLevel := s.braceLevel - 1,
                                   blocks := setCat s.blocks id
                                     (fun g => g.appendString [b] s.pos),
                                   ignore := false, last := b, escape := false })
    ∧ (s.braceLevel = 1 → s.braceFirst = false → b = '}' →
      s.catchRef = some (.block id) →
      parseByte s b = .ok { s with braceLevel := 0,
                                   catchRef := s.parentCatchOf (.block id),
                                   braceFirst := false, ignore := false, last := b,
                                   escape := false }) := by
  refine ⟨?_, ?_, ?_, ?_, ?_⟩
  · intro h0 hcm hb hn h3 hlast
    subst hb
    have hstep : parseByte s '{' = openStep s '{' := by
      unfold parseByte
      simp [h0, hcm]
    rw [hstep]
    unfold openStep
    obtain ⟨t', ht', hb1, hb2, hb3, hb4, hb5, hb6⟩ :=
      openBlock_brace_spec { s with ignore := true } id h3 hlast hn
    rw [if_neg (by simp [hesc]), if_neg (by simp [hn])]
    simp only [ht']
    rw [handleByte_block t' '{' s.blocks.length hb4 (by rw [hb5]; exact hesc)]
    refine ⟨_, rfl, ?_, ?_, ?_, ?_⟩
    · simp [hb1, h0]
    · simp [hb2]
    · simp [hb3]
    · simp [hb4]
  · intro hbl hbf hnb
    unfold parseByte braceStep nextByte
    simp [hbl, hbf, hnb]
  · intro hbl hbf hnb h3
    unfold parseByte braceStep handleByte nextByte PState.updateCatch
    rcases Decidable.em (b = '{') with hb | hb
    · subst hb
      simp [hbl, hbf, h3, hesc, shouldSkipByte, byteOK]
    · simp [hbl, hbf, hnb, hb, h3, hesc, shouldSkipByte, byteOK]
  · intro hbl hbf hb h3
    subst hb
    have hne : s.braceLevel - 1 ≠ 0 := by omega
    have hpos : s.braceLevel ≠ 0 := by omega
    unfold parseByte braceStep handleByte nextByte PState.updateCatch
    simp [hbf, hne, hpos, h3, hesc, shouldSkipByte, byteOK]
  · intro hbl hbf hb h3
    subst hb
    unfold parseByte braceStep nextByte PState.parentCatchOf
    simp [hbl, hbf, h3]

/-- Witness for C1: in the state reached after `a{{`, the interior byte `x`
is appended literally to block 1's catch. -/
theorem brace_escape_region_witness :
    parseByte braceWitnessState 'x' =
      .ok { braceWitnessState with
            braceLevel := (if ('x' : Char) = '{' then braceWitnessState.braceLevel + 1
                           else braceWitnessState.braceLevel),
            blocks := setCat braceWitnessState.blocks 1
              (fun g => g.appendString ['x'] braceWitnessState.pos),
            ignore := false, last := 'x', escape := false } :=
  (brace_escape_region braceWitnessState 'x' 1 (by decide)).2.2.1 (by decide) (by decide)
    (by decide) (by decide)

/-- C4 (amended): comment handling.  (1) An unescaped `/` with lookahead `*`
increments `commentLevel`.  (2) A `*` with lookahead `/` at positive level
decrements it and skips the `/`.  (3) Any other byte inside a comment is
discarded — no catch changes — though a backslash still arms the escape flag.
(4) The exception the claim misses: an escaped comment opener inside a
comment appends the preceding byte and the `/` to the current catch.  (5) An
unescaped `*/` at level 0 is ordinary content. -/
theorem comment_handling (s : PState) (b : Char) (id : Nat)
    (h0 : s.braceLevel = 0) :
    (b = '/' → s.next = '*' → s.escape = false →
      parseByte s b = .ok { s with commentLevel := s.commentLevel + 1,
                                   ignore := false, last := b, escape := false })
    ∧ (b = '*' → s.next = '/' → s.commentLevel ≠ 0 →
      parseByte s b = .ok { s with commentLevel := s.commentLevel - 1, skip := true,
                                   ignore := false, last := b, escape := false })
    ∧ (s.commentLevel ≠ 0 → ¬(b = '/' ∧ s.next = '*') → ¬(b = '*' ∧ s.next = '/') →
      parseByte s b = .ok { s with ignore := false, last := b,
                                   escape := (if b = '\\' ∧ s.escape = false
                                              then true else false) })
    ∧ (s.commentLevel ≠ 0 → b = '/' → s.next = '*' → s.escape = true →
      s.catchRef = some (.block id) →
      parseByte s b = .ok { s with blocks := setCat s.blocks id
                                     (fun g => g.appendString [s.last, b] s.pos),
                                   ignore := false, last := b, escape := false })
    ∧ (b = '*' → s.next = '/' → s.commentLevel = 0 → s.escape = false →
      s.catchRef = some (.block id) →
      parseByte s b = .ok { s with blocks := setCat s.blocks id
                                     (fun g => g.appendString [b] s.pos),
                                   ignore := false, last := b, escape := false }) := by
  refine ⟨?_, ?_, ?_, ?_, ?_⟩
  · intro hb hn he
    subst hb
    unfold parseByte commentOpenStep nextByte
    simp [h0, hn, he]
  · intro hb hn hc
    subst hb
    unfold parseByte commentCloseStep nextByte
    simp [h0, hn, hc]
  · intro hc hno hnc
    unfold parseByte nextByte
    simp [h0, hno, hnc, hc]
  · intro hc hb hn he h3
    subst hb
    unfold parseByte commentOpenStep handleByte nextByte PState.updateCatch
    simp [h0, hn, he, h3, shouldSkipByte, byteOK]
  · intro hb hn hc he h3
    subst hb
    unfold parseByte commentCloseStep handleByte nextByte PState.updateCatch
    simp [h0, hn, hc, he, h3, shouldSkipByte, byteOK]

/-- Witness for C4: at the start of a source whose second byte is `*`, the
byte `/` opens a comment. -/
theorem comment_handling_witness :
    parseByte { initState with next := '*' } '/' =
      .ok { initState with next := '*', commentLevel := initState.commentLevel + 1,
                           ignore := false, last := '/', escape := false } :=
  (comment_handling { initState with next := '*' } '/' 0 rfl).1 rfl rfl rfl

/-- C8 (amended): a `\r` byte outside comments, brace escapes and escapes is
handled as ordinary content — appended to the current catch rather than
stripped. -/
theorem cr_is_ordinary_content (s : PState) (id : Nat)
    (h0 : s.braceLevel = 0) (h1 : s.commentLevel = 0) (h2 : s.escape = false)
    (h3 : s.catchRef = some (.block id)) :
    parseByte s '\r' =
      .ok { s with blocks := setCat s.blocks id (fun g => g.appendString ['\r'] s.pos),
                   ignore := false, last := '\r', escape := false } := by
  unfold parseByte handleByte nextByte PState.updateCatch
  simp [h0, h1, h2, h3, isVarToken, shouldSkipByte, byteOK]

/-- Witness for C8's amended theorem: the parser appends a leading `\r` to
the `main` block's catch. -/
theorem cr_is_ordinary_content_witness :
    parseByte initState '\r' =
      .ok { initState with
            blocks := setCat initState.blocks 0
              (fun g => g.appendString ['\r'] initState.pos),
            ignore := false, last := '\r', escape := false } :=
  cr_is_ordinary_content initState 0 rfl rfl rfl rfl

/-- C7: when the backward header scan yields an empty block type, the parser
defaults the type to `map` and successfully creates the block — opening a
block with no named type does not abort parsing. -/
theorem empty_type_defaults_to_map (s : PState) (id : Nat)
    (h0 : s.braceLevel = 0) (h1 : s.commentLevel = 0) (h2 : s.escape = false)
    (hna : s.next ≠ '@') (h3 : s.catchRef = some (.block id))
    (hlast : s.curLastString ≠ [])
    (hscan : (scanGo s.curLastString.reverse 0 [] [] 0).blockType = []) :
    ∃ s' bd, parseByte s '{' = .ok s' ∧ s'.blockId = s.blocks.length ∧
      s'.blocks.get? s.blocks.length = some bd ∧ bd.typ = mapType ∧
      bd.parent = some s.blockId := by
  have hstep : parseByte s '{' = openStep s '{' := by
    unfold parseByte
    simp [h0, h1]
  rw [hstep]
  unfold openStep
  obtain ⟨t', ht', hc1, hc2, hc3, hc4⟩ :=
    openBlock_creates { s with ignore := true } id h3 hlast hscan
  rw [if_neg (by simp [h2]), if_neg (by simpa using hna)]
  simp only [ht']
  rw [handleByte_block t' '{' s.blocks.length hc2 (by rw [hc3]; exact h2)]
  have hget := setCat_get? t'.blocks s.blocks.length
    (fun g => g.appendString ['{'] t'.pos) _ hc4
  exact ⟨_, _, rfl, by simpa using hc1, hget, rfl, rfl⟩

/-- Witness for C7: after a lone space, `{` opens a `map` block. -/
theorem empty_type_defaults_to_map_witness :
    ∃ s' bd, parseByte spaceWitnessState '{' = .ok s' ∧
      s'.blockId = spaceWitnessState.blocks.length ∧
      s'.blocks.get? spaceWitnessState.blocks.length = some bd ∧ bd.typ = mapType ∧
      bd.parent = some spaceWitnessState.blockId :=
  empty_type_defaults_to_map spaceWitnessState 0 (by decide) (by decide) (by decide)
    (by decide) (by decide) (by decide) (by decide)

end Parser

end Quiki

namespace Quiki

namespace Gallery

/-- Counterexample for C6: order matters.  In a gallery whose anonymous image
key precedes its `thumb_height 100` key, the image is re-parsed with the
*default* height 220 (visible in the stored entry's height and thumbnail
path), even though the gallery's final `thumb_height` is the declared 100 —
contradicting the claim that images parse with the declared `thumb_height`
regardless of where the key appears. -/
theorem gallery_thumb_order_cex :
    (galleryParse ['i', 'm', 'g'] (newGalleryBlock
      [(['a', 'n', 'o', 'n', '_', '1'],
        .img ⟨['p', 'i', 'c'], ['o', 'r', 'i', 'g'], 0, 0, false⟩),
       (thumbHeightKey, .str ['1', '0', '0'])])).thumbHeight = 100 ∧
    (galleryParse ['i', 'm', 'g'] (newGalleryBlock
      [(['a', 'n', 'o', 'n', '_', '1'],
        .img ⟨['p', 'i', 'c'], ['o', 'r', 'i', 'g'], 0, 0, false⟩),
       (thumbHeightKey, .str ['1', '0', '0'])])).images.map
      (fun e => e.img.height) = [220] := by
  decide

/-- One key-loop iteration on a key other than `thumb_height` preserves the
thumbnail height, and any entry it adds is an image re-parsed with the
*current* `thumbHeight` and width 0, with thumbnail and full-size paths as in
`addImage`. -/
theorem galleryStep_entries (rootImage : List Char) (g : GalleryBlock)
    (kv : List Char × GVal) (hk : kv.1 ≠ thumbHeightKey) :
    (galleryStep rootImage g kv).thumbHeight = g.thumbHeight ∧
    ∀ e ∈ (galleryStep rootImage g kv).images,
      e ∈ g.images ∨
        (e.img.height = g.thumbHeight ∧ e.img.width = 0 ∧
         e.img.parsedDimensions = true ∧
         e.thumbPath = intToChars 0 ++ ['x'] ++ intToChars g.thumbHeight ++ ['-'] ++
           e.img.file ∧
         e.img.path = rootImage ++ ['/'] ++ e.img.file) := by
  unfold galleryStep addImage imageParse
  rw [if_neg hk]
  by_cases hpre : anonPrefix.isPrefixOf kv.1 = false
  · rw [if_pos hpre]
    exact ⟨rfl, fun e he => Or.inl he⟩
  · rw [if_neg hpre]
    cases hv : kv.2 with
    | str sv => exact ⟨rfl, fun e he => Or.inl he⟩
    | other => exact ⟨rfl, fun e he => Or.inl he⟩
    | img i =>
      refine ⟨rfl, fun e he => ?_⟩
      rcases List.mem_append.mp he with h | h
      · exact Or.inl h
      · have he' := List.mem_singleton.mp h
        subst he'
        exact Or.inr ⟨rfl, rfl, rfl, rfl, rfl⟩

/-- Folding the key loop over keys none of which is `thumb_height` preserves
the thumbnail height, and every added entry is an image re-parsed with that
height and width 0. -/
theorem galleryFold_entries (rootImage : List Char)
    (rest : List (List Char × GVal)) :
    ∀ g : GalleryBlock, (∀ kv ∈ rest, kv.1 ≠ thumbHeightKey) →
      (rest.foldl (galleryStep rootImage) g).thumbHeight = g.thumbHeight ∧
      ∀ e ∈ (rest.foldl (galleryStep rootImage) g).images,
        e ∈ g.images ∨
          (e.img.height = g.thumbHeight ∧ e.img.width = 0 ∧
           e.img.parsedDimensions = true ∧
           e.thumbPath = intToChars 0 ++ ['x'] ++ intToChars g.thumbHeight ++ ['-'] ++
             e.img.file ∧
           e.img.path = rootImage ++ ['/'] ++ e.img.file) := by
  induction rest with
  | nil => exact fun g _ => ⟨rfl, fun e he => Or.inl he⟩
  | cons kv rest ih =>
    intro g hnk
    have hk := hnk kv (List.mem_cons_self _ _)
    obtain ⟨hth, himg⟩ := galleryStep_entries rootImage g kv hk
    obtain ⟨ith, iimg⟩ :=
      ih (galleryStep rootImage g kv) (fun kv' h => hnk kv' (List.mem_cons_of_mem _ h))
    rw [List.foldl_cons]
    refine ⟨by rw [ith, hth], fun e he => ?_⟩
    rcases iimg e he with h | hprops
    · rcases himg e h with h' | hprops'
      · exact Or.inl h'
      · exact Or.inr hprops'
    · rw [hth] at hprops
      exact Or.inr hprops

/-- C6 (amended): `thumb_height` defaults to 220, and the gallery's keys are
processed in insertion order: every anonymous image is re-parsed with
`height` equal to the `thumbHeight` value current when its key is reached
(and `width` 0), with the thumbnail path derived from that height and the
full-size path retained under the image root.  In particular, images whose
keys are reached while no `thumb_height` key has yet been processed use the
value current at that point — not necessarily the declared one. -/
theorem gallery_thumb_height (rootImage : List Char) (g : GalleryBlock)
    (rest : List (List Char × GVal))
    (hnk : ∀ kv ∈ rest, kv.1 ≠ thumbHeightKey) :
    (∀ entries, (newGalleryBlock entries).thumbHeight = 220) ∧
    (rest.foldl (galleryStep rootImage) g).thumbHeight = g.thumbHeight ∧
    ∀ e ∈ (rest.foldl (galleryStep rootImage) g).images,
      e ∈ g.images ∨
        (e.img.height = g.thumbHeight ∧ e.img.width = 0 ∧
         e.img.parsedDimensions = true ∧
         e.thumbPath = intToChars 0 ++ ['x'] ++ intToChars g.thumbHeight ++ ['-'] ++
           e.img.file ∧
         e.img.path = rootImage ++ ['/'] ++ e.img.file) :=
  ⟨fun _ => rfl, galleryFold_entries rootImage rest g hnk⟩

/-- Witness for C6's amended theorem, at a gallery holding one anonymous
image and no `thumb_height` key. -/
theorem gallery_thumb_height_witness :
    (∀ entries, (newGalleryBlock entries).thumbHeight = 220) ∧
    ([([('a' : Char), 'n', 'o', 'n', '_', '1'],
       GVal.img ⟨['p'], ['o'], 0, 0, false⟩)].foldl
        (galleryStep ['i', 'm', 'g']) (newGalleryBlock [])).thumbHeight =
      (newGalleryBlock []).thumbHeight ∧
    ∀ e ∈ ([([('a' : Char), 'n', 'o', 'n', '_', '1'],
             GVal.img ⟨['p'], ['o'], 0, 0, false⟩)].foldl
              (galleryStep ['i', 'm', 'g']) (newGalleryBlock [])).images,
      e ∈ (newGalleryBlock []).images ∨
        (e.img.height = (newGalleryBlock []).thumbHeight ∧ e.img.width = 0 ∧
         e.img.parsedDimensions = true ∧
         e.thumbPath = intToChars 0 ++ ['x'] ++
           intToChars (newGalleryBlock []).thumbHeight ++ ['-'] ++ e.img.file ∧
         e.img.path = ['i', 'm', 'g'] ++ ['/'] ++ e.img.file) :=
  gallery_thumb_height ['i', 'm', 'g'] (newGalleryBlock [])
    [([('a' : Char), 'n', 'o', 'n', '_', '1'], GVal.img ⟨['p'], ['o'], 0, 0, false⟩)]
    (by decide)

end Gallery

end Quiki

namespace Quiki

/-- A list with a known last element splits as `dropLast ++ [last]`. -/
theorem list_last_decomp {α} (l : List α) (x : α) (h : l.getLast? = some x) :
    l = l.dropLast ++ [x] :=
  (List.dropLast_append_getLast? x h).symm

/-- `lastLFIndex` points at a newline: dropping up to it exposes `'\n'`. -/
theorem lastLFIndex_head (v : List Char) (h : '\n' ∈ v) :
    (v.drop (lastLFIndex v)).head? = some '\n' := by
  induction v with
  | nil => cases h
  | cons c rest ih =>
    by_cases hr : '\n' ∈ rest
    · rw [lastLFIndex, if_pos hr]
      simpa using ih hr
    · have hc : c = '\n' := by
        rcases List.mem_cons.mp h with h' | h'
        · exact h'.symm
        · exact absurd h' hr
      rw [lastLFIndex, if_neg hr, hc]
      simp

/-- Without a newline, `lastLFIndex` falls back to 0. -/
theorem lastLFIndex_zero (v : List Char) (h : '\n' ∉ v) : lastLFIndex v = 0 := by
  cases v with
  | nil => rfl
  | cons c rest =>
    have hr : '\n' ∉ rest := fun h' => h (List.mem_cons_of_mem _ h')
    rw [lastLFIndex, if_neg hr]
    simp

/-- An indent prefix (tabs and spaces) never matches a string that starts
with a newline, so `TrimPrefix` leaves it alone. -/
theorem trimPrefix_head_nl (s ri : List Char) (hri : IndentOnly ri) (hne : ri ≠ [])
    (hh : s.head? = some '\n') : trimPrefix s ri = s := by
  unfold trimPrefix
  cases ri with
  | nil => exact absurd rfl hne
  | cons r rs =>
    cases s with
    | nil => simp at hh
    | cons x t =>
      have hx : x = '\n' := by simpa using hh
      have hr : r = '\t' ∨ r = ' ' := hri r (List.mem_cons_self _ _)
      have hrx : (r == x) = false := by
        rcases hr with h | h <;> subst h <;> subst hx <;> decide
      rw [if_neg]
      intro hpre
      rw [List.isPrefixOf] at hpre
      rw [hrx] at hpre
      simp at hpre

/-- `TrimPrefix` only removes characters, so membership is preserved. -/
theorem trimPrefix_mem (s ri : List Char) (a : Char) (h : a ∈ trimPrefix s ri) :
    a ∈ s := by
  unfold trimPrefix at h
  by_cases hp : ri.isPrefixOf s
  · rw [if_pos hp] at h
    exact List.mem_of_mem_drop h
  · rwa [if_neg hp] at h

/-- The prefix recorded by `appendString`'s indent bookkeeping consists of
tabs and spaces only. -/
theorem take_diff_indent (l : List Char) :
    IndentOnly (l.take (l.length -
      (l.dropWhile (fun ch => decide (ch = '\t' ∨ ch = ' '))).length)) := by
  intro ch hch
  have hlen : l.length - (l.dropWhile (fun ch => decide (ch = '\t' ∨ ch = ' '))).length
      = (l.takeWhile (fun ch => decide (ch = '\t' ∨ ch = ' '))).length := by
    have h := congrArg List.length
      (List.takeWhile_append_dropWhile
        (p := fun ch => decide (ch = '\t' ∨ ch = ' ')) (l := l))
    simp only [List.length_append] at h
    omega
  rw [hlen] at hch
  have htake : l.take (l.takeWhile (fun ch => decide (ch = '\t' ∨ ch = ' '))).length
      = l.takeWhile (fun ch => decide (ch = '\t' ∨ ch = ' ')) := by
    nth_rewrite 2 [← List.takeWhile_append_dropWhile
      (p := fun ch => decide (ch = '\t' ∨ ch = ' ')) (l := l)]
    exact List.take_left _ _
  rw [htake] at hch
  have hp := List.mem_takeWhile_imp hch
  simpa using hp

/-- `setLastContent` replaces the last element's content, keeping its
position. -/
theorem setLastContent_positioned (c : GCatch) (it : Item) (pi : PosItem)
    (h : c.positioned.getLast? = some pi) :
    (c.setLastContent it).positioned = c.positioned.dropLast ++ [⟨it, pi.pos⟩] := by
  unfold GCatch.setLastContent
  rw [h]

/-- `finishLine` on a catch whose last content is a string: the last string
may be indent-trimmed, but a trailing newline is preserved, and a string not
ending in a newline cannot acquire one. -/
theorem finishLine_str_last (c : GCatch) (v : List Char) (q : Pos)
    (hri : IndentOnly c.removeIndent)
    (h : c.positioned.getLast? = some ⟨.str v, q⟩) :
    ∃ v', c.finishLine.positioned = c.positioned.dropLast ++ [⟨.str v', q⟩] ∧
      (v.getLast? = some '\n' → v' = v) ∧
      (v.getLast? ≠ some '\n' → v'.getLast? ≠ some '\n') := by
  have hdec := list_last_decomp _ _ h
  unfold GCatch.finishLine
  simp only [GCatch.lastContent?, h, Option.map_some']
  by_cases hre : c.removeIndent = []
  · rw [if_pos hre]
    exact ⟨v, hdec, fun _ => rfl, fun hnl => hnl⟩
  · rw [if_neg hre]
    have hset := setLastContent_positioned { c with line := ([] : List Char) }
      (.str (v.take (lastLFIndex v) ++ trimPrefix (v.drop (lastLFIndex v)) c.removeIndent))
      ⟨.str v, q⟩ h
    by_cases hmem : '\n' ∈ v
    · have hhead := lastLFIndex_head v hmem
      have htrim := trimPrefix_head_nl _ _ hri hre hhead
      have hv : v.take (lastLFIndex v) ++
          trimPrefix (v.drop (lastLFIndex v)) c.removeIndent = v := by
        rw [htrim, List.take_append_drop]
      refine ⟨v, ?_, fun _ => rfl, fun hnl => hnl⟩
      rw [hv]
      exact setLastContent_positioned { c with line := ([] : List Char) }
        (.str v) ⟨.str v, q⟩ h
    · refine ⟨_, hset, ?_, ?_⟩
      · intro hend
        exact absurd (List.mem_of_mem_getLast? hend) hmem
      · intro _ hcon
        have hm := List.mem_of_mem_getLast? hcon
        rcases List.mem_append.mp hm with hm' | hm'
        · exact hmem (List.mem_of_mem_take hm')
        · exact hmem (List.mem_of_mem_drop (trimPrefix_mem _ _ _ hm'))

/-- The newline phase of `appendString` on a catch whose last content is a
string: same guarantees as `finishLine`, for any appended string. -/
theorem applyNewline_str_last (c : GCatch) (s : List Char)
    (hri : IndentOnly c.removeIndent) (v : List Char) (q : Pos)
    (h : c.positioned.getLast? = some ⟨.str v, q⟩) :
    ∃ v', (c.applyNewline s).positioned = c.positioned.dropLast ++ [⟨.str v', q⟩] ∧
      (v.getLast? = some '\n' → v' = v) ∧
      (v.getLast? ≠ some '\n' → v'.getLast? ≠ some '\n') := by
  have hdec := list_last_decomp _ _ h
  simp only [GCatch.applyNewline]
  by_cases hs : s.getLast? = some '\n'
  · rw [if_pos hs]
    by_cases hcnd : c.firstNewline = false ∧ (c.line ++ s).length > 2
    · rw [if_pos hcnd]
      by_cases hdiff : (c.line ++ s).length -
          ((c.line ++ s).dropWhile (fun ch => decide (ch = '\t' ∨ ch = ' '))).length ≠ 0
      · rw [if_pos hdiff]
        exact finishLine_str_last _ v q (take_diff_indent _) h
      · rw [if_neg hdiff]
        exact finishLine_str_last _ v q hri h
    · rw [if_neg hcnd]
      exact finishLine_str_last _ v q hri h
  · rw [if_neg hs]
    exact ⟨v, hdec, fun _ => rfl, fun hnl => hnl⟩

/-- `finishLine` does not touch the positioned list when the last content is
not a string. -/
theorem finishLine_positioned_nonstr (c : GCatch)
    (h : ∀ v q, c.positioned.getLast? ≠ some ⟨.str v, q⟩) :
    c.finishLine.positioned = c.positioned := by
  unfold GCatch.finishLine
  cases hg : c.positioned.getLast? with
  | none =>
    simp only [GCatch.lastContent?, hg, Option.map_none']
  | some pi =>
    obtain ⟨it, qq⟩ := pi
    cases it with
    | str v => exact absurd hg (h v qq)
    | blk i =>
      simp only [GCatch.lastContent?, hg, Option.map_some']

/-- The newline phase does not touch the positioned list when the last
content is not a string. -/
theorem applyNewline_nonstr (c : GCatch) (s : List Char)
    (h : ∀ v q, c.positioned.getLast? ≠ some ⟨.str v, q⟩) :
    (c.applyNewline s).positioned = c.positioned := by
  simp only [GCatch.applyNewline]
  by_cases hs : s.getLast? = some '\n'
  · rw [if_pos hs]
    by_cases hcnd : c.firstNewline = false ∧ (c.line ++ s).length > 2
    · rw [if_pos hcnd]
      exact finishLine_positioned_nonstr _ h
    · rw [if_neg hcnd]
      exact finishLine_positioned_nonstr _ h
  · rw [if_neg hs]

/-- `pushContent` appends one positioned element. -/
theorem pushContent_positioned (c : GCatch) (it : Item) (p : Pos) :
    (c.pushContent it p).positioned = c.positioned ++ [⟨it, p⟩] := rfl

/-- `appendString` merges into the last element when it is a string that does
not end in a newline. -/
theorem appendString_merge (c : GCatch) (s : List Char) (pos : Pos)
    (hri : IndentOnly c.removeIndent) (v : List Char) (q : Pos)
    (h : c.positioned.getLast? = some ⟨.str v, q⟩) (hnl : v.getLast? ≠ some '\n') :
    ∃ v', v'.getLast? ≠ some '\n' ∧
      (c.appendString s pos).positioned =
        c.positioned.dropLast ++ [⟨.str (v' ++ s), q⟩] := by
  obtain ⟨v', hpos, _, hnl'⟩ := applyNewline_str_last c s hri v q h
  have hnlv' := hnl' hnl
  simp only [GCatch.appendString]
  have hne : (c.applyNewline s).positioned ≠ [] := by
    rw [hpos]
    simp
  rw [if_neg hne]
  have hgl1 : (c.applyNewline s).positioned.getLast? = some ⟨.str v', q⟩ := by
    rw [hpos, List.getLast?_concat]
  have hlast1 : (c.applyNewline s).lastContent? = some (.str v') := by
    unfold GCatch.lastContent?
    rw [hgl1]
    rfl
  simp only [hlast1]
  rw [if_neg (fun hcon => hnlv' hcon.2)]
  have hset := setLastContent_positioned (c.applyNewline s) (.str (v' ++ s))
    ⟨.str v', q⟩ hgl1
  refine ⟨v', hnlv', ?_⟩
  rw [hset, hpos, List.dropLast_concat]

/-- `appendString` starts a new positioned element when the positioned list
is empty, ends in a block, or ends in a string ending in a newline. -/
theorem appendString_push (c : GCatch) (s : List Char) (pos : Pos)
    (hri : IndentOnly c.removeIndent)
    (hcase : c.positioned = [] ∨ (∃ i q, c.positioned.getLast? = some ⟨.blk i, q⟩) ∨
      (∃ v q, c.positioned.getLast? = some ⟨.str v, q⟩ ∧ v.getLast? = some '\n')) :
    (c.appendString s pos).positioned = c.positioned ++ [⟨.str s, pos⟩] := by
  simp only [GCatch.appendString]
  rcases hcase with hemp | ⟨i, q, hblk⟩ | ⟨v, q, hstr, hend⟩
  · have hn : ∀ v q, c.positioned.getLast? ≠ some ⟨Item.str v, q⟩ := by
      simp [hemp]
    have h1 := applyNewline_nonstr c s hn
    rw [if_pos (by rw [h1, hemp]), pushContent_positioned, h1]
  · have hn : ∀ v q', c.positioned.getLast? ≠ some ⟨Item.str v, q'⟩ := by
      intro v q' hc
      rw [hblk] at hc
      simp at hc
    have h1 := applyNewline_nonstr c s hn
    have hne : c.positioned ≠ [] := by
      intro h'
      rw [h'] at hblk
      simp at hblk
    rw [if_neg (by rw [h1]; exact hne)]
    have hlast1 : (c.applyNewline s).lastContent? = some (.blk i) := by
      unfold GCatch.lastContent?
      rw [show (c.applyNewline s).positioned.getLast? = some ⟨Item.blk i, q⟩ from by
        rw [h1, hblk]]
      rfl
    simp only [hlast1]
    rw [pushContent_positioned, h1]
  · obtain ⟨v', hpos, heq, _⟩ := applyNewline_str_last c s hri v q hstr
    have hv' : v' = v := heq hend
    subst hv'
    have hdec := list_last_decomp _ _ hstr
    have h1 : (c.applyNewline s).positioned = c.positioned := by
      rw [hpos, ← hdec]
    have hne : c.positioned ≠ [] := by
      intro h'
      rw [h'] at hstr
      simp at hstr
    rw [if_neg (by rw [h1]; exact hne)]
    have hlast1 : (c.applyNewline s).lastContent? = some (.str v') := by
      unfold GCatch.lastContent?
      rw [show (c.applyNewline s).positioned.getLast? = some ⟨Item.str v', q⟩ from by
        rw [h1, hstr]]
      rfl
    simp only [hlast1]
    have hvne : v' ≠ [] := by
      intro h'
      rw [h'] at hend
      simp at hend
    rw [if_pos ⟨hvne, hend⟩, pushContent_positioned, h1]

/-- C9: `appendString` maintains the invariant that no two consecutive
positioned elements are both strings unless the earlier one ends in a
newline; it merges the appended string into the last element exactly when
that element is a string not ending in a newline (same length, the last
element becomes its — possibly indent-trimmed — string followed by the new
one at the old position), and starts a new element otherwise (length grows by
one and the new last element is the appended string at the new position).
The hypotheses record the Go preconditions: `appendString` is never called
with an empty string (it would panic), and `removeIndent` only ever holds
tabs and spaces. -/
theorem appendString_spec (c : GCatch) (s : List Char) (pos : Pos)
    (_hs : s ≠ []) (hri : IndentOnly c.removeIndent) :
    (CatchInv c → CatchInv (c.appendString s pos)) ∧
    (∀ v q, c.positioned.getLast? = some ⟨.str v, q⟩ → v.getLast? ≠ some '\n' →
      (c.appendString s pos).positioned.length = c.positioned.length ∧
      ∃ v', (c.appendString s pos).positioned.getLast? = some ⟨.str (v' ++ s), q⟩) ∧
    ((c.positioned = [] ∨ (∃ i q, c.positioned.getLast? = some ⟨.blk i, q⟩) ∨
      (∃ v q, c.positioned.getLast? = some ⟨.str v, q⟩ ∧ v.getLast? = some '\n')) →
      (c.appendString s pos).positioned.length = c.positioned.length + 1 ∧
      (c.appendString s pos).positioned.getLast? = some ⟨.str s, pos⟩) := by
  refine ⟨?_, ?_, ?_⟩
  · intro hinv
    cases hgl : c.positioned.getLast? with
    | none =>
      have hemp : c.positioned = [] := List.getLast?_eq_none_iff.mp hgl
      have hp := appendString_push c s pos hri (Or.inl hemp)
      unfold CatchInv
      rw [hp, hemp]
      simp
    | some pi =>
      obtain ⟨it, q⟩ := pi
      cases it with
      | blk i =>
        have hp := appendString_push c s pos hri (Or.inr (Or.inl ⟨i, q, hgl⟩))
        unfold CatchInv at hinv ⊢
        rw [hp]
        refine List.chain'_append.mpr ⟨hinv, by simp, ?_⟩
        intro x hx y hy
        simp only [List.head?_cons, Option.mem_def, Option.some.injEq] at hy
        subst hy
        rw [Option.mem_def, hgl, Option.some.injEq] at hx
        subst hx
        unfold okPair
        simp
      | str v =>
        by_cases hend : v.getLast? = some '\n'
        · have hp := appendString_push c s pos hri
            (Or.inr (Or.inr ⟨v, q, hgl, hend⟩))
          unfold CatchInv at hinv ⊢
          rw [hp]
          refine List.chain'_append.mpr ⟨hinv, by simp, ?_⟩
          intro x hx y hy
          simp only [List.head?_cons, Option.mem_def, Option.some.injEq] at hy
          subst hy
          rw [Option.mem_def, hgl, Option.some.injEq] at hx
          subst hx
          unfold okPair
          simpa using hend
        · obtain ⟨v', hnlv', hm⟩ := appendString_merge c s pos hri v q hgl hend
          unfold CatchInv at hinv ⊢
          rw [hm]
          have hdec := list_last_decomp _ _ hgl
          rw [hdec] at hinv
          obtain ⟨h1, _, h3⟩ := List.chain'_append.mp hinv
          refine List.chain'_append.mpr ⟨h1, by simp, ?_⟩
          intro x hx y hy
          simp only [List.head?_cons, Option.mem_def, Option.some.injEq] at hy
          subst hy
          have h3x := h3 x hx ⟨.str v, q⟩ (by simp)
          obtain ⟨xc, xq⟩ := x
          cases xc with
          | blk j =>
            unfold okPair
            simp
          | str u =>
            unfold okPair at h3x ⊢
            simpa using h3x
  · intro v q h hnl
    obtain ⟨v', _, hm⟩ := appendString_merge c s pos hri v q h hnl
    have hne : c.positioned ≠ [] := by
      intro h'
      rw [h'] at h
      simp at h
    constructor
    · rw [hm]
      have hlen := List.length_pos.mpr hne
      simp only [List.length_append, List.length_dropLast, List.length_cons,
        List.length_nil]
      omega
    · exact ⟨v', by rw [hm, List.getLast?_concat]⟩
  · intro hcase
    have hp := appendString_push c s pos hri hcase
    constructor
    · rw [hp]
      simp
    · rw [hp, List.getLast?_concat]

/-- Witness for C9, at a catch holding the single pending string `a`. -/
theorem appendString_spec_witness :
    (CatchInv c9Witness → CatchInv (c9Witness.appendString ['b'] ⟨1, 2⟩)) ∧
    (∀ v q, c9Witness.positioned.getLast? = some ⟨.str v, q⟩ →
      v.getLast? ≠ some '\n' →
      (c9Witness.appendString ['b'] ⟨1, 2⟩).positioned.length =
        c9Witness.positioned.length ∧
      ∃ v', (c9Witness.appendString ['b'] ⟨1, 2⟩).positioned.getLast? =
        some ⟨.str (v' ++ ['b']), q⟩) ∧
    ((c9Witness.positioned = [] ∨
      (∃ i q, c9Witness.positioned.getLast? = some ⟨.blk i, q⟩) ∨
      (∃ v q, c9Witness.positioned.getLast? = some ⟨.str v, q⟩ ∧
        v.getLast? = some '\n')) →
      (c9Witness.appendString ['b'] ⟨1, 2⟩).positioned.length =
        c9Witness.positioned.length + 1 ∧
      (c9Witness.appendString ['b'] ⟨1, 2⟩).positioned.getLast? =
        some ⟨.str ['b'], ⟨1, 2⟩⟩) :=
  appendString_spec c9Witness ['b'] ⟨1, 2⟩ (by decide)
    (by intro ch hch; simp [c9Witness] at hch)

end Quiki
